import Mathlib

/-!
Verification of the 4-bit DAC / ADC notebook.

The repository consists of two pure Python functions:

* `dac_output(binary_input, V_ref)` — maps a 4-character binary string to a
  weighted-sum analog voltage;
* `adc_output(V_in, V_ref)` — quantizes an analog voltage into a binary
  string using Python's built-in `round` (round-half-to-even) and
  `format(·, '04b')`.

Voltages are modelled as rationals (`ℚ`), standing for exact real
arithmetic.  Fallible functions (those that `raise ValueError`) return
`Option`: `none` models the raised error.
-/

/-- Python `round` on an exact rational value: round to the nearest
integer, ties to even.  Models `round(x)` applied to the value `x = q`. -/
def pyRound (q : ℚ) : ℤ :=
  if q - (⌊q⌋ : ℚ) < 1/2 then ⌊q⌋
  else if q - (⌊q⌋ : ℚ) > 1/2 then ⌊q⌋ + 1
  else if ⌊q⌋ % 2 = 0 then ⌊q⌋ else ⌊q⌋ + 1

/-- Python `format(n, 'b')` on a non-negative integer: base-2 digit
characters, most significant first (`'0'` for zero).  Uses the standard
library digit printer. -/
def natBinDigits (n : ℕ) : List Char := Nat.toDigits 2 n

/-- Python `format(n, '04b')`: binary representation of the integer `n`,
zero-padded to a minimum total width of 4; a negative number carries a
leading `'-'` that counts toward the width. -/
def format04b (n : ℤ) : String :=
  if n < 0 then
    String.mk ('-' :: (List.replicate (3 - (natBinDigits n.natAbs).length) '0'
      ++ natBinDigits n.natAbs))
  else
    String.mk (List.replicate (4 - (natBinDigits n.natAbs).length) '0'
      ++ natBinDigits n.natAbs)

/-- The weight list `[8/16, 4/16, 2/16, 1/16]` from `dac_output`. -/
def weights : List ℚ := [8/16, 4/16, 2/16, 1/16]

/-- Python `int(bit)` for a digit character: its numeric digit value. -/
def bitVal (c : Char) : ℚ := ((c.toNat - 48 : ℕ) : ℚ)

/-- The function `dac_output` of the notebook.  Raising `ValueError`
(when the input's length is not 4 or some character is outside `{0,1}`)
is modelled by `none`; otherwise the weighted sum
`sum(int(bit) * weight * V_ref for bit, weight in zip(binary_input, weights))`
is returned. -/
def dac_output (binary_input : String) (V_ref : ℚ) : Option ℚ :=
  if binary_input.length ≠ 4 ∨ ¬ (∀ c ∈ binary_input.data, c = '0' ∨ c = '1') then
    none
  else
    some (((binary_input.data.zip weights).map
      (fun p => bitVal p.1 * p.2 * V_ref)).sum)

/-- The digital value computed inside `adc_output`:
`round(V_in / delta_V)` with `delta_V = V_ref / 2**4`. -/
def adc_digital (V_in V_ref : ℚ) : ℤ :=
  pyRound (V_in / (V_ref / (2 ^ 4 : ℚ)))

/-- The function `adc_output` of the notebook.  Raising `ValueError`
(when `V_in > V_ref`) is modelled by `none`; otherwise the digital value
`round(V_in / (V_ref / 2**4))` is formatted with `format(·, '04b')`. -/
def adc_output (V_in V_ref : ℚ) : Option String :=
  if V_in > V_ref then none
  else some (format04b (pyRound (V_in / (V_ref / (2 ^ 4 : ℚ)))))

/-- The unsigned integer value of a binary code string, most significant
bit first. -/
def codeVal (b : String) : ℕ :=
  b.data.foldl (fun acc c => 2 * acc + (if c = '1' then 1 else 0)) 0

/-- The digit value of the character `0` is `0`. -/
@[simp] lemma bitVal_zero : bitVal '0' = 0 := by
  unfold bitVal
  rw [show '0'.toNat - 48 = 0 by decide]
  norm_num

/-- The digit value of the character `1` is `1`. -/
@[simp] lemma bitVal_one : bitVal '1' = 1 := by
  unfold bitVal
  rw [show '1'.toNat - 48 = 1 by decide]
  norm_num

/-- Rounding an exact integer changes nothing. -/
lemma pyRound_intCast (n : ℤ) : pyRound (n : ℚ) = n := by
  unfold pyRound
  rw [Int.floor_intCast]
  norm_num

/-- Rounding an exact natural number changes nothing. -/
lemma pyRound_natCast (n : ℕ) : pyRound (n : ℚ) = (n : ℤ) := by
  simpa using pyRound_intCast (n : ℤ)

/-- A string of length 4 whose characters are bits is a four-character
string of bits. -/
lemma valid_code_shape (b : String) (h4 : b.length = 4)
    (hall : ∀ c ∈ b.data, c = '0' ∨ c = '1') :
    ∃ u v w x, b = String.mk [u, v, w, x] ∧
      (u = '0' ∨ u = '1') ∧ (v = '0' ∨ v = '1') ∧
      (w = '0' ∨ w = '1') ∧ (x = '0' ∨ x = '1') := by
  obtain ⟨l⟩ := b
  have hl : l.length = 4 := h4
  have hmem : ∀ c ∈ l, c = '0' ∨ c = '1' := hall
  rcases l with _ | ⟨u, _ | ⟨v, _ | ⟨w, _ | ⟨x, _ | ⟨y, t⟩⟩⟩⟩⟩ <;>
      simp only [List.length_cons, List.length_nil] at hl <;> try omega
  exact ⟨u, v, w, x, rfl, hmem u (by simp), hmem v (by simp),
    hmem w (by simp), hmem x (by simp)⟩

/-- On a four-character bit string the DAC guard passes and the weighted
sum evaluates to `V * (8 b3 + 4 b2 + 2 b1 + b0) / 16`. -/
lemma dac_output_valid (u v w x : Char) (V : ℚ)
    (hu : u = '0' ∨ u = '1') (hv : v = '0' ∨ v = '1')
    (hw : w = '0' ∨ w = '1') (hx : x = '0' ∨ x = '1') :
    dac_output (String.mk [u, v, w, x]) V =
      some (V * (8 * bitVal u + 4 * bitVal v + 2 * bitVal w + bitVal x) / 16) := by
  have hguard : ¬ ((String.mk [u, v, w, x]).length ≠ 4 ∨
      ¬ (∀ c ∈ (String.mk [u, v, w, x]).data, c = '0' ∨ c = '1')) := by
    push_neg
    refine ⟨rfl, fun c hc => ?_⟩
    have hc4 : c ∈ [u, v, w, x] := hc
    simp only [List.mem_cons, List.not_mem_nil, or_false] at hc4
    rcases hc4 with rfl | rfl | rfl | rfl <;> assumption
  unfold dac_output
  rw [if_neg hguard]
  have hdata : (String.mk [u, v, w, x]).data = [u, v, w, x] := rfl
  rw [hdata]
  simp only [weights, List.zip_cons_cons, List.zip_nil_left, List.zip_nil_right,
    List.map_cons, List.map_nil, List.sum_cons, List.sum_nil]
  congr 1
  ring

/-- The characters `0` and `1` are distinct. -/
@[simp] lemma char_zero_eq_one_iff : ('0' : Char) = '1' ↔ False := by
  refine ⟨fun h => ?_, False.elim⟩
  exact absurd h (by decide)

/-- The value of a four-character code via `codeVal` as an explicit
weighted sum of bit indicators. -/
lemma codeVal_quad (u v w x : Char) :
    codeVal (String.mk [u, v, w, x]) =
      8 * (if u = '1' then 1 else 0) + 4 * (if v = '1' then 1 else 0)
        + 2 * (if w = '1' then 1 else 0) + (if x = '1' then 1 else 0) := by
  unfold codeVal
  have hdata : (String.mk [u, v, w, x]).data = [u, v, w, x] := rfl
  rw [hdata]
  simp only [List.foldl]
  ring

/-- The value of a four-bit code is at most 15. -/
lemma codeVal_le_15 (u v w x : Char) : codeVal (String.mk [u, v, w, x]) ≤ 15 := by
  rw [codeVal_quad]
  split_ifs <;> norm_num

/-- On bit characters, the rational cast of `codeVal` agrees with the
weighted sum of digit values used by the DAC. -/
lemma codeVal_cast (u v w x : Char)
    (hu : u = '0' ∨ u = '1') (hv : v = '0' ∨ v = '1')
    (hw : w = '0' ∨ w = '1') (hx : x = '0' ∨ x = '1') :
    ((codeVal (String.mk [u, v, w, x]) : ℕ) : ℚ) =
      8 * bitVal u + 4 * bitVal v + 2 * bitVal w + bitVal x := by
  rcases hu with rfl | rfl <;> rcases hv with rfl | rfl <;>
    rcases hw with rfl | rfl <;> rcases hx with rfl | rfl <;>
      norm_num [codeVal_quad]

/-- The rounded value is at least as close to the argument as any other
integer. -/
lemma pyRound_nearest (q : ℚ) (m : ℤ) :
    |q - (pyRound q : ℚ)| ≤ |q - (m : ℚ)| := by
  have h1 : (⌊q⌋ : ℚ) ≤ q := Int.floor_le q
  have h2 : q < (⌊q⌋ : ℚ) + 1 := Int.lt_floor_add_one q
  have hm : (m : ℚ) ≤ (⌊q⌋ : ℚ) ∨ (⌊q⌋ : ℚ) + 1 ≤ (m : ℚ) := by
    rcases le_or_lt m ⌊q⌋ with h | h
    · exact Or.inl (by exact_mod_cast h)
    · exact Or.inr (by exact_mod_cast h)
  unfold pyRound
  split_ifs with hf1 hf2 hpar <;> push_cast <;> rcases hm with h | h
  · rw [abs_of_nonneg (by linarith), abs_of_nonneg (by linarith)]
    linarith
  · rw [abs_of_nonneg (by linarith), abs_of_nonpos (by linarith)]
    linarith
  · rw [abs_of_nonpos (by linarith), abs_of_nonneg (by linarith)]
    linarith
  · rw [abs_of_nonpos (by linarith), abs_of_nonpos (by linarith)]
    linarith
  · rw [abs_of_nonneg (by linarith), abs_of_nonneg (by linarith)]
    linarith
  · rw [abs_of_nonneg (by linarith), abs_of_nonpos (by linarith)]
    linarith
  · rw [abs_of_nonpos (by linarith), abs_of_nonneg (by linarith)]
    linarith
  · rw [abs_of_nonpos (by linarith), abs_of_nonpos (by linarith)]
    linarith

/-- When the argument lies exactly halfway between two integers, the
rounded value is even. -/
lemma pyRound_tie_even (q : ℚ) (h : q - (⌊q⌋ : ℚ) = 1/2) :
    pyRound q % 2 = 0 := by
  unfold pyRound
  rw [if_neg (by rw [h]; norm_num), if_neg (by rw [h]; norm_num)]
  split_ifs with hpar
  · exact hpar
  · omega

/-- Feeding the ADC the exact voltage `V * n / 16` with `n ≤ 15` yields
the 4-bit formatting of `n` (and no error is raised). -/
lemma adc_eval_exact (n : ℕ) (V : ℚ) (hV : 0 < V) (hn : n ≤ 15) :
    adc_output (V * n / 16) V = some (format04b (n : ℤ)) := by
  have hV0 : V ≠ 0 := ne_of_gt hV
  have hle : V * n / 16 ≤ V := by
    rw [div_le_iff₀ (by norm_num : (0:ℚ) < 16)]
    have hc : (n : ℚ) ≤ 15 := by exact_mod_cast hn
    nlinarith
  unfold adc_output
  rw [if_neg (not_lt.mpr hle)]
  rw [show V * n / 16 / (V / (2 ^ 4 : ℚ)) = ((n : ℕ) : ℚ) by
    rw [show (2 ^ 4 : ℚ) = 16 by norm_num]
    field_simp]
  rw [pyRound_natCast]

/-- Formatting the value of a four-bit code with `format(·, '04b')`
reproduces the code. -/
lemma format04b_codeVal (u v w x : Char)
    (hu : u = '0' ∨ u = '1') (hv : v = '0' ∨ v = '1')
    (hw : w = '0' ∨ w = '1') (hx : x = '0' ∨ x = '1') :
    format04b ((codeVal (String.mk [u, v, w, x]) : ℕ) : ℤ) =
      String.mk [u, v, w, x] := by
  rcases hu with rfl | rfl <;> rcases hv with rfl | rfl <;>
    rcases hw with rfl | rfl <;> rcases hx with rfl | rfl <;> decide

/-- Auxiliary bound: a digit value is non-negative. -/
lemma bitVal_nonneg (c : Char) : 0 ≤ bitVal c := by
  unfold bitVal
  positivity

/-- Auxiliary bound: a bit character has digit value at most 1. -/
lemma bitVal_le_one (c : Char) (h : c = '0' ∨ c = '1') : bitVal c ≤ 1 := by
  rcases h with rfl | rfl <;> simp

example : dac_output "1010" 5 = some (25/8) := by
  unfold dac_output
  rw [if_neg (by decide)]
  norm_num [weights]

example : codeVal "1010" = 10 := by decide

/-- Claim C1.  The spec says `adc_output(V_ref, V_ref)` returns `"1111"`
for every positive reference voltage; the code instead rounds
`V_ref / (V_ref/16)` to 16 and `format(16, '04b')` yields the
five-character string `"10000"`.  The notebook's own text says the
digital output "must not exceed 2^4 - 1" and the docstring promises a
4-bit string, so this is a missing clamp in the code. -/
theorem adc_output_full_scale_overflows : adc_output 5 5 = some "10000" := by
  unfold adc_output
  rw [if_neg (by norm_num)]
  rw [show (5 : ℚ) / (5 / (2 ^ 4 : ℚ)) = ((16 : ℤ) : ℚ) by norm_num]
  rw [pyRound_intCast]
  decide

/-- Claim C2.  The spec says every normally returned code has length 4
with characters in `{0,1}`.  At the in-range input `V_in = -1`,
`V_ref = 5` the code rounds `-1/(5/16)` to `-3` and `format(-3, '04b')`
returns `"-011"`, whose first character is `'-'`; the length-4/bits
invariant promised by the docstring is violated. -/
theorem adc_output_negative_input_not_binary :
    adc_output (-1) 5 = some "-011" ∧
      ¬ (∀ c ∈ ("-011" : String).data, c = '0' ∨ c = '1') := by
  constructor
  · unfold adc_output
    rw [if_neg (by norm_num)]
    rw [show (-1 : ℚ) / (5 / (2 ^ 4 : ℚ)) = -16/5 by norm_num]
    rw [show pyRound (-16/5) = -3 by
      unfold pyRound
      rw [show ⌊(-16/5 : ℚ)⌋ = -4 by norm_num]
      norm_num]
    decide
  · decide

/-- Claim C3.  Round-trip: for every valid 4-bit code and every positive
reference voltage, quantizing the DAC's output voltage recovers the
code, because the DAC output lies exactly on a quantization boundary. -/
theorem dac_adc_roundtrip (b : String) (V : ℚ) (h4 : b.length = 4)
    (hall : ∀ c ∈ b.data, c = '0' ∨ c = '1') (hV : 0 < V) :
    (dac_output b V).bind (fun r => adc_output r V) = some b := by
  obtain ⟨u, v, w, x, rfl, hu, hv, hw, hx⟩ := valid_code_shape b h4 hall
  rw [dac_output_valid u v w x V hu hv hw hx, Option.some_bind]
  rw [← codeVal_cast u v w x hu hv hw hx]
  rw [adc_eval_exact _ V hV (codeVal_le_15 u v w x)]
  rw [format04b_codeVal u v w x hu hv hw hx]

/-- Witness for claim C3 at the concrete code `"1010"` and reference
voltage 5. -/
theorem dac_adc_roundtrip_witness :
    ("1010" : String).length = 4 ∧ (0 : ℚ) < 5 ∧
      (dac_output "1010" 5).bind (fun r => adc_output r 5) = some "1010" :=
  ⟨by decide, by norm_num,
    dac_adc_roundtrip "1010" 5 (by decide) (by decide) (by norm_num)⟩

/-- Claim C4.  For a valid code with bits `u v w x` (most significant
first) and positive reference voltage, the DAC output is
`V * (8u + 4v + 2w + 1x) / 16`. -/
theorem dac_output_weighted_sum (u v w x : Char) (V : ℚ)
    (hu : u = '0' ∨ u = '1') (hv : v = '0' ∨ v = '1')
    (hw : w = '0' ∨ w = '1') (hx : x = '0' ∨ x = '1') (hV : 0 < V) :
    dac_output (String.mk [u, v, w, x]) V =
      some (V * (8 * bitVal u + 4 * bitVal v + 2 * bitVal w + 1 * bitVal x) / 16) := by
  rw [dac_output_valid u v w x V hu hv hw hx]
  congr 1
  ring

/-- Witness for claim C4 at the concrete code `"1010"` and reference
voltage 5. -/
theorem dac_output_weighted_sum_witness :
    (0 : ℚ) < 5 ∧
      dac_output (String.mk ['1', '0', '1', '0']) 5 =
        some (5 * (8 * bitVal '1' + 4 * bitVal '0' + 2 * bitVal '1' + 1 * bitVal '0') / 16) :=
  ⟨by norm_num,
    dac_output_weighted_sum '1' '0' '1' '0' 5 (Or.inr rfl) (Or.inl rfl)
      (Or.inr rfl) (Or.inl rfl) (by norm_num)⟩

/-- Claim C5.  The DAC raises `ValueError` (returns `none`) exactly when
the input string's length is not 4 or some character is neither `0` nor
`1`; on every valid code it returns a value. -/
theorem dac_output_error_iff (b : String) (V : ℚ) :
    dac_output b V = none ↔
      (b.length ≠ 4 ∨ ∃ c ∈ b.data, c ≠ '0' ∧ c ≠ '1') := by
  have hGR : (b.length ≠ 4 ∨ ¬ (∀ c ∈ b.data, c = '0' ∨ c = '1')) ↔
      (b.length ≠ 4 ∨ ∃ c ∈ b.data, c ≠ '0' ∧ c ≠ '1') := by
    constructor <;> intro h <;> rcases h with h | h
    · exact Or.inl h
    · push_neg at h
      exact Or.inr h
    · exact Or.inl h
    · refine Or.inr ?_
      push_neg
      exact h
  unfold dac_output
  split_ifs with h
  · exact iff_of_true rfl (hGR.mp h)
  · constructor
    · intro hs
      exact absurd hs (by simp)
    · intro hr
      exact absurd (hGR.mpr hr) h

/-- Claim C6.  The ADC raises `ValueError` (returns `none`) exactly when
the input voltage strictly exceeds the reference voltage; in particular
a negative in-range input does not raise. -/
theorem adc_output_error_iff (V_in V_ref : ℚ) :
    adc_output V_in V_ref = none ↔ V_ref < V_in := by
  unfold adc_output
  split_ifs with h
  · exact iff_of_true rfl h
  · exact iff_of_false (by simp) h

/-- Claim C7.  For an in-range input with positive reference voltage the
ADC formats the digital value `adc_digital`, which rounds
`V_in / (V_ref/16)` to the nearest integer with ties resolved to the
even integer. -/
theorem adc_digital_round_half_even (V_in V_ref : ℚ) (hV : 0 < V_ref)
    (hle : V_in ≤ V_ref) :
    adc_output V_in V_ref = some (format04b (adc_digital V_in V_ref)) ∧
    (∀ m : ℤ, |V_in / (V_ref / 16) - (adc_digital V_in V_ref : ℚ)| ≤
      |V_in / (V_ref / 16) - (m : ℚ)|) ∧
    (V_in / (V_ref / 16) - ((⌊V_in / (V_ref / 16)⌋ : ℤ) : ℚ) = 1/2 →
      adc_digital V_in V_ref % 2 = 0) := by
  have h16 : (2 ^ 4 : ℚ) = 16 := by norm_num
  refine ⟨?_, ?_, ?_⟩
  · unfold adc_output adc_digital
    rw [if_neg (not_lt.mpr hle)]
  · intro m
    unfold adc_digital
    rw [h16]
    exact pyRound_nearest _ m
  · intro ht
    unfold adc_digital
    rw [h16]
    exact pyRound_tie_even _ ht

/-- Witness for claim C7 at `V_in = 5/2`, `V_ref = 5`. -/
theorem adc_digital_round_half_even_witness :
    (0 : ℚ) < 5 ∧ (5/2 : ℚ) ≤ 5 ∧
    (adc_output (5/2) 5 = some (format04b (adc_digital (5/2) 5)) ∧
      (∀ m : ℤ, |(5/2 : ℚ) / (5 / 16) - (adc_digital (5/2) 5 : ℚ)| ≤
        |(5/2 : ℚ) / (5 / 16) - (m : ℚ)|) ∧
      ((5/2 : ℚ) / (5 / 16) - ((⌊(5/2 : ℚ) / (5 / 16)⌋ : ℤ) : ℚ) = 1/2 →
        adc_digital (5/2) 5 % 2 = 0)) :=
  ⟨by norm_num, by norm_num,
    adc_digital_round_half_even (5/2) 5 (by norm_num) (by norm_num)⟩

/-- Claim C8.  For every valid code and positive reference voltage the
DAC output lies in the closed interval from 0 to the reference
voltage. -/
theorem dac_output_in_range (b : String) (V : ℚ) (h4 : b.length = 4)
    (hall : ∀ c ∈ b.data, c = '0' ∨ c = '1') (hV : 0 < V) :
    ∃ r, dac_output b V = some r ∧ 0 ≤ r ∧ r ≤ V := by
  obtain ⟨u, v, w, x, rfl, hu, hv, hw, hx⟩ := valid_code_shape b h4 hall
  refine ⟨_, dac_output_valid u v w x V hu hv hw hx, ?_, ?_⟩
  · have h0u := bitVal_nonneg u
    have h0v := bitVal_nonneg v
    have h0w := bitVal_nonneg w
    have h0x := bitVal_nonneg x
    positivity
  · have h1u := bitVal_le_one u hu
    have h1v := bitVal_le_one v hv
    have h1w := bitVal_le_one w hw
    have h1x := bitVal_le_one x hx
    rw [div_le_iff₀ (by norm_num : (0:ℚ) < 16)]
    nlinarith [bitVal_nonneg u, bitVal_nonneg v, bitVal_nonneg w, bitVal_nonneg x]

/-- Witness for claim C8 at the concrete code `"1111"` and reference
voltage 5. -/
theorem dac_output_in_range_witness :
    (0 : ℚ) < 5 ∧ ∃ r, dac_output "1111" 5 = some r ∧ 0 ≤ r ∧ r ≤ 5 :=
  ⟨by norm_num, dac_output_in_range "1111" 5 (by decide) (by decide) (by norm_num)⟩

/-- Claim C9.  For every positive reference voltage, quantizing the zero
voltage yields the code `"0000"`. -/
theorem adc_output_zero (V_ref : ℚ) (hV : 0 < V_ref) :
    adc_output 0 V_ref = some "0000" := by
  have h := adc_eval_exact 0 V_ref hV (by norm_num)
  rw [show V_ref * ((0 : ℕ) : ℚ) / 16 = 0 by norm_num] at h
  rw [h]
  decide

/-- Witness for claim C9 at reference voltage 5. -/
theorem adc_output_zero_witness :
    (0 : ℚ) < 5 ∧ adc_output 0 5 = some "0000" :=
  ⟨by norm_num, adc_output_zero 5 (by norm_num)⟩

/-- Claim C10.  The DAC is monotone: a code with smaller unsigned value
produces a smaller (or equal) output voltage. -/
theorem dac_output_monotone (b1 b2 : String) (V : ℚ)
    (h14 : b1.length = 4) (h1all : ∀ c ∈ b1.data, c = '0' ∨ c = '1')
    (h24 : b2.length = 4) (h2all : ∀ c ∈ b2.data, c = '0' ∨ c = '1')
    (hV : 0 < V) (hle : codeVal b1 ≤ codeVal b2) :
    ∃ r1 r2, dac_output b1 V = some r1 ∧ dac_output b2 V = some r2 ∧
      r1 ≤ r2 := by
  obtain ⟨u1, v1, w1, x1, rfl, hu1, hv1, hw1, hx1⟩ := valid_code_shape b1 h14 h1all
  obtain ⟨u2, v2, w2, x2, rfl, hu2, hv2, hw2, hx2⟩ := valid_code_shape b2 h24 h2all
  refine ⟨_, _, dac_output_valid u1 v1 w1 x1 V hu1 hv1 hw1 hx1,
    dac_output_valid u2 v2 w2 x2 V hu2 hv2 hw2 hx2, ?_⟩
  rw [← codeVal_cast u1 v1 w1 x1 hu1 hv1 hw1 hx1,
    ← codeVal_cast u2 v2 w2 x2 hu2 hv2 hw2 hx2]
  have hc : ((codeVal (String.mk [u1, v1, w1, x1]) : ℕ) : ℚ) ≤
      ((codeVal (String.mk [u2, v2, w2, x2]) : ℕ) : ℚ) := by
    exact_mod_cast hle
  gcongr

/-- Witness for claim C10 at the concrete codes `"0101"` and `"1010"`
and reference voltage 5. -/
theorem dac_output_monotone_witness :
    (0 : ℚ) < 5 ∧ codeVal "0101" ≤ codeVal "1010" ∧
      ∃ r1 r2, dac_output "0101" 5 = some r1 ∧ dac_output "1010" 5 = some r2 ∧
        r1 ≤ r2 :=
  ⟨by norm_num, by decide,
    dac_output_monotone "0101" "1010" 5 (by decide) (by decide) (by decide)
      (by decide) (by norm_num) (by decide)⟩
